import Mathlib

/-!
Verification of the separation pipeline in `src/model/umx.py`
(`OpenUnmix`, `UMXSeparator`, `bandwidth_to_max_bin`).

The embedding is shallow: Python/numpy/torch code is translated into
executable Lean definitions.  Real-valued frequency arithmetic is modelled
over `ℚ` (the grid values involved are exact binary fractions, so rational
arithmetic matches), tensors are modelled as a shape together with a total
indexing function, Python exceptions as `Except`/`Option`.
-/

namespace UMX

/-- Model of `np.linspace a b num` with `endpoint=True`: `num` evenly spaced points
from `a` to `b` inclusive.  For `num ≥ 2` the step is `(b - a)/(num - 1)`;
for `num = 1` numpy returns `[a]`, which the formula also yields because
division by zero is zero in `ℚ`. -/
def linspace (a b : ℚ) (num : ℕ) : List ℚ :=
  (List.range num).map (fun (i : ℕ) => a + (b - a) * (i : ℚ) / ((num : ℚ) - 1))

/-- Model of `bandwidth_to_max_bin(rate, n_fft, bandwidth)` from `src/model/umx.py`:
builds `freqs = np.linspace(0, rate/2, n_fft//2 + 1, endpoint=True)` and
returns `np.max(np.where(freqs <= bandwidth)[0]) + 1`.  `np.max` of an
empty index array raises `ValueError`; this failure is modelled by `none`. -/
def bandwidth_to_max_bin (rate : ℚ) (n_fft : ℕ) (bandwidth : ℚ) : Option ℕ :=
  let freqs := linspace 0 (rate / 2) (n_fft / 2 + 1)
  let idxs := (List.range freqs.length).filter (fun i => decide (freqs.getD i 0 ≤ bandwidth))
  match idxs.max? with
  | some m => some (m + 1)
  | none => none

/-- The number of sources handed to the Wiener refinement in
`UMXSeparator.forward`: `nb_sources = len(self._target_models)`, then
`if self._residual: nb_sources += 1`. -/
def effectiveSources (nbTargets : ℕ) (residual : Bool) : ℕ :=
  nbTargets + (if residual then 1 else 0)

/-- The chunking `while` loop of `UMXSeparator.forward`:
`pos = 0; while pos < nb_frames: cur_frame = arange(pos, min(nb_frames, pos
+ wiener_win_len)); pos = cur_frame[-1] + 1`.  The update `cur_frame[-1] + 1`
equals `min nbFrames (pos + wwl)` whenever the chunk is nonempty (`wwl ≥ 1`).
Fuel bounds the iteration count; `nbFrames` steps suffice since each
nonempty chunk advances `pos` by at least one. -/
def chunksAux (wwl nbFrames : ℕ) : ℕ → ℕ → List (List ℕ)
  | _, 0 => []
  | pos, fuel + 1 =>
    if pos < nbFrames then
      List.range' pos (min nbFrames (pos + wwl) - pos) ::
        chunksAux wwl nbFrames (min nbFrames (pos + wwl)) fuel
    else []

/-- Frame chunks produced by `UMXSeparator.forward` for one sample:
`wiener_win_len = self._wiener_win_len if self._wiener_win_len is not None
else nb_frames`, then the `while` loop above. -/
def chunks (nbFrames : ℕ) (wienerWinLen : Option ℕ) : List (List ℕ) :=
  let wwl := match wienerWinLen with
    | some w => w
    | none => nbFrames
  chunksAux wwl nbFrames 0 nbFrames

/-- Model of `UMXSeparator.forward` after the per-target spectrogram loop: add one
source when residual mode is on, raise if EM is requested with a single
effective source, otherwise run the chunked refinement; the value returned
here is the schedule of frame chunks passed to `wiener`. -/
def forwardSchedule (nbTargets : ℕ) (residual : Bool) (numIter : ℕ)
    (nbFrames : ℕ) (wienerWinLen : Option ℕ) : Except String (List (List ℕ)) :=
  let nbSources := effectiveSources nbTargets residual
  if nbSources = 1 ∧ 0 < numIter then
    Except.error
      ("Cannot use EM if only one target is estimated.Provide two targets or create an additional one with --residual")
  else
    Except.ok (chunks nbFrames wienerWinLen)

/-- The `i`-th point of the frequency grid built by `bandwidth_to_max_bin`:
`np.linspace(0, rate/2, n_fft//2 + 1)[i]` (out-of-range reads default to 0,
matching the `getD` used in the filter). -/
def gridFreq (rate : ℚ) (n_fft : ℕ) (i : ℕ) : ℚ :=
  (linspace 0 (rate / 2) (n_fft / 2 + 1)).getD i 0

/-- A torch tensor, modelled as a shape together with a total function
from multi-indices to entries. -/
structure Tensor (α : Type) where
  shape : List ℕ
  data : List ℕ → α

/-- Python `t[k, :, ...]`: index the first axis with `k`, dropping it. -/
def Tensor.index0 {α : Type} (t : Tensor α) (k : ℕ) : Tensor α :=
  ⟨t.shape.tail, fun ix => t.data (k :: ix)⟩

/-- Python `t[-1, :, ...]`: negative indexing addresses position
`len - 1` on the first axis. -/
def Tensor.indexNeg1 {α : Type} (t : Tensor α) : Tensor α :=
  t.index0 (t.shape.headD 0 - 1)

/-- Model of `t.squeeze(0)`: drop the first axis exactly when its extent is 1,
otherwise return the tensor unchanged. -/
def Tensor.squeeze0 {α : Type} (t : Tensor α) : Tensor α :=
  if t.shape.headD 0 = 1 then ⟨t.shape.tail, fun ix => t.data (0 :: ix)⟩ else t

/-- Model of `torch.tensor(0.0)`: a zero-dimensional scalar tensor. -/
def Tensor.scalarZero {α : Type} [Zero α] : Tensor α := ⟨[], fun _ => 0⟩

/-- torch `+` as used in `UMXSeparator.to_dict`: a zero-dimensional operand
broadcasts its scalar over the other tensor; otherwise the operands share a
shape and add elementwise. -/
def Tensor.add {α : Type} [Add α] (a b : Tensor α) : Tensor α :=
  if a.shape = [] then ⟨b.shape, fun ix => a.data [] + b.data ix⟩
  else ⟨a.shape, fun ix => a.data ix + b.data ix⟩

/-- The first loop of `UMXSeparator.to_dict`:
`for k, target in enumerate(self._target_models):
estimates_dict[target] = estimates[k, :, ...]`, with `k` starting at the
given offset. -/
def targetEntries {α : Type} (estimates : Tensor α) :
    ℕ → List String → List (String × Tensor α)
  | _, [] => []
  | k, t :: ts => (t, estimates.index0 k) :: targetEntries estimates (k + 1) ts

/-- The estimates dictionary of `UMXSeparator.to_dict` before aggregation:
per-target entries in load order, then
`if self._residual: estimates_dict["residual"] = estimates[-1, :, ...]`. -/
def estimatesDict {α : Type} (targets : List String) (residual : Bool)
    (estimates : Tensor α) : List (String × Tensor α) :=
  targetEntries estimates 0 targets ++
    (if residual then [("residual", estimates.indexNeg1)] else [])

/-- Model of `UMXSeparator.to_dict(estimates, aggregate_dict)`: build the
per-target dictionary; when an aggregation specification is given, replace
it with one entry per aggregation key, each the sum (starting from
`torch.tensor(0.0)`) of the entries of its constituent target names.  A
missing constituent raises `KeyError`, modelled by `none`. -/
def to_dict {α : Type} [Zero α] [Add α] (targets : List String) (residual : Bool)
    (estimates : Tensor α) (aggregate : Option (List (String × List String))) :
    Option (List (String × Tensor α)) :=
  let base := estimatesDict targets residual estimates
  match aggregate with
  | none => some base
  | some agg =>
    agg.mapM (fun p =>
      (p.2.foldlM (fun acc name => (base.lookup name).map (fun t => acc.add t))
        Tensor.scalarZero).map (fun t => (p.1, t)))

/-- Model of `UMXSeparator.separate(mix)`: run `forward`, drop the sample axis with
`estimates.squeeze(0)`, and convert to a dictionary (no aggregation). -/
def separate {α : Type} [Zero α] [Add α] (targets : List String) (residual : Bool)
    (estimates : Tensor α) : Option (List (String × Tensor α)) :=
  to_dict targets residual estimates.squeeze0 none

/-- A heap of tensor values: an allocation counter and a store from
addresses to values; models torch storage for the per-target estimation
loop, where `X.detach().clone()` allocates fresh storage. -/
structure Heap (α : Type) where
  next : ℕ
  store : ℕ → α

/-- Allocate a fresh cell holding `v`; returns the new heap and the fresh
address. -/
def Heap.alloc {α : Type} (h : Heap α) (v : α) : Heap α × ℕ :=
  (⟨h.next + 1, fun a => if a = h.next then v else h.store a⟩, h.next)

/-- Overwrite the cell at address `a` with `v` (in-place tensor mutation). -/
def Heap.write {α : Type} (h : Heap α) (a : ℕ) (v : α) : Heap α :=
  ⟨h.next, fun b => if b = a then v else h.store b⟩

/-- A per-target magnitude estimator as the loop in `UMXSeparator.forward`
may observe it: from the value of its argument it produces an output
spectrogram (`out`), and it may also mutate the tensor passed to it in
place (`eff`). -/
structure Estimator (α : Type) where
  out : α → α
  eff : α → α

/-- One iteration of the estimation loop:
`target_spectrogram = target_module(X.detach().clone())` — the estimator
receives a freshly allocated copy of the value at `xAddr` (which it may
mutate in place), never the cell at `xAddr` itself, and its output is
recorded. -/
def estimateStep {α : Type} (xAddr : ℕ) (h : Heap α) (est : Estimator α) :
    Heap α × α :=
  ((h.alloc (h.store xAddr)).1.write (h.alloc (h.store xAddr)).2
      (est.eff (h.store xAddr)),
    est.out (h.store xAddr))

/-- The loop `for j, target_name in enumerate(self._target_models)` of
`UMXSeparator.forward`, threading the heap and collecting the per-target
spectrograms in order. -/
def estimateLoop {α : Type} (xAddr : ℕ) : Heap α → List (Estimator α) →
    Heap α × List α
  | h, [] => (h, [])
  | h, est :: rest =>
    ((estimateLoop xAddr (estimateStep xAddr h est).1 rest).1,
      (estimateStep xAddr h est).2 ::
        (estimateLoop xAddr (estimateStep xAddr h est).1 rest).2)

/-- Shape semantics of `OpenUnmix.forward`, one step per line of the
source; the guards are the conditions under which the corresponding torch
operation (reshape divisibility, matching feature dimensions, elementwise
broadcasting) is defined, and `none` models a runtime shape error.
Arguments `nbChannels nbBins nbOutputBins hidden unidirectional` are the
constructor state; `(s, c, b, f)` is the input shape
`(nb_samples, nb_channels, nb_bins, nb_frames)`. -/
def openUnmixForwardShape (nbChannels nbBins nbOutputBins hidden : ℕ)
    (unidirectional : Bool) (s c b f : ℕ) : Option (ℕ × ℕ × ℕ × ℕ) :=
  -- x = x.permute(3, 0, 1, 2) : (f, s, c, b); mix = x.detach().clone()
  -- x = x[..., : self.nb_bins] : last dim cropped to min b nbBins
  let b1 := min b nbBins
  -- x = self.fc1(x.reshape(-1, nb_channels * self.nb_bins))
  let n := nbChannels * nbBins
  if n = 0 then none
  else if (f * s * c * b1) % n ≠ 0 then none
  else
    let rows := (f * s * c * b1) / n
    -- after fc1 and bn1: (rows, hidden); x = x.reshape(nb_frames, nb_samples, hidden)
    if rows * hidden ≠ f * s * hidden then none
    else
      -- lstm_out last dim, skip connection cat, fc2 expects 2 * hidden
      let lstmOut := (if unidirectional then 1 else 2) *
        (if unidirectional then hidden else hidden / 2)
      if hidden + lstmOut ≠ 2 * hidden then none
      else
        -- fc2/bn2/relu/fc3/bn3 : (f * s, nb_output_bins * nb_channels);
        -- x = x.reshape(nb_frames, nb_samples, nb_channels, nb_output_bins)
        if f * s * (nbOutputBins * nbChannels) ≠ f * s * c * nbOutputBins then none
        else
          -- x = F.relu(x) * mix : mix has shape (f, s, c, b)
          if nbOutputBins ≠ b then none
          -- return x.permute(1, 2, 3, 0)
          else some (s, c, nbOutputBins, f)

/-- Model of `F.relu` on one entry. -/
def relu (v : ℚ) : ℚ := max v 0

/-- The output stage of `OpenUnmix.forward`
(`x = F.relu(x) * mix; return x.permute(1, 2, 3, 0)`): `x` here is `pre`,
the activations reaching the ReLU after the network trunk (universally
quantified in the theorems, since the property does not depend on them),
and `mix = x.detach().clone()` is the copy of the permuted input saved at
the top of `forward`.  Tensors are value maps on
`(sample, channel, bin, frame)` indices; the two permutes are inlined as
index reorderings. -/
def openUnmixMaskOutput (pre x : ℕ × ℕ × ℕ × ℕ → ℚ) : ℕ × ℕ × ℕ × ℕ → ℚ :=
  -- mix lives in (frame, sample, channel, bin) order after permute(3, 0, 1, 2)
  let mix : ℕ × ℕ × ℕ × ℕ → ℚ := fun p => x (p.2.1, p.2.2.1, p.2.2.2, p.1)
  -- the result is read back in (sample, channel, bin, frame) order
  fun q => relu (pre (q.2.2.2, q.1, q.2.1, q.2.2.1)) *
    mix (q.2.2.2, q.1, q.2.1, q.2.2.1)

theorem linspace_length (a b : ℚ) (num : ℕ) : (linspace a b num).length = num := by
  simp only [linspace, List.length_map, List.length_range]

theorem gridFreq_eq (rate : ℚ) (n_fft : ℕ) {i : ℕ} (h : i ≤ n_fft / 2) :
    gridFreq rate n_fft i = rate / 2 * (i : ℚ) / ((n_fft / 2 : ℕ) : ℚ) := by
  have hi : i < n_fft / 2 + 1 := by omega
  simp only [gridFreq, linspace, List.getD_eq_getElem?_getD, List.getElem?_map,
    List.getElem?_range hi, Option.map_some', Option.getD_some]
  push_cast
  ring

theorem bandwidth_to_max_bin_eq (rate : ℚ) (n_fft : ℕ) (bandwidth : ℚ) :
    bandwidth_to_max_bin rate n_fft bandwidth =
      match ((List.range (n_fft / 2 + 1)).filter
          (fun i => decide (gridFreq rate n_fft i ≤ bandwidth))).max? with
      | some m => some (m + 1)
      | none => none := by
  simp [bandwidth_to_max_bin, gridFreq, linspace_length]

theorem gridFreq_le_nyquist (rate : ℚ) (n_fft : ℕ) (hrate : 0 ≤ rate)
    (hn : 2 ≤ n_fft) {i : ℕ} (hi : i ≤ n_fft / 2) :
    gridFreq rate n_fft i ≤ rate / 2 := by
  rw [gridFreq_eq rate n_fft hi]
  have hb : (0 : ℚ) < ((n_fft / 2 : ℕ) : ℚ) := by
    have : 1 ≤ n_fft / 2 := by omega
    exact_mod_cast Nat.lt_of_lt_of_le Nat.zero_lt_one this
  rw [div_le_iff₀ hb]
  have hcast : (i : ℚ) ≤ ((n_fft / 2 : ℕ) : ℚ) := by exact_mod_cast hi
  nlinarith

theorem gridFreq_nonneg (rate : ℚ) (n_fft : ℕ) (hrate : 0 ≤ rate)
    {i : ℕ} (hi : i ≤ n_fft / 2) : 0 ≤ gridFreq rate n_fft i := by
  rw [gridFreq_eq rate n_fft hi]
  have h0 : (0 : ℚ) ≤ ((n_fft / 2 : ℕ) : ℚ) := by positivity
  exact div_nonneg (mul_nonneg (by linarith) (by positivity)) h0

/-- C2: for every sample rate `rate > 0`, FFT length `n_fft ≥ 2` and
bandwidth `≥ 0`, `bandwidth_to_max_bin` returns one plus the largest index
of a point of the `n_fft/2 + 1`-point grid from `0` to `rate/2` that does
not exceed the bandwidth; and whenever the bandwidth is at least the
Nyquist frequency `rate/2` it clamps, returning the full bin count
`n_fft/2 + 1`. -/
theorem bandwidth_to_max_bin_spec (rate : ℚ) (n_fft : ℕ) (bandwidth : ℚ)
    (hrate : 0 < rate) (hn : 2 ≤ n_fft) (hbw : 0 ≤ bandwidth) :
    (∃ m, bandwidth_to_max_bin rate n_fft bandwidth = some (m + 1) ∧
        m ≤ n_fft / 2 ∧ gridFreq rate n_fft m ≤ bandwidth ∧
        ∀ i ≤ n_fft / 2, gridFreq rate n_fft i ≤ bandwidth → i ≤ m) ∧
    (rate / 2 ≤ bandwidth →
        bandwidth_to_max_bin rate n_fft bandwidth = some (n_fft / 2 + 1)) := by
  have h0 : (0 : ℕ) ∈ (List.range (n_fft / 2 + 1)).filter
      (fun i => decide (gridFreq rate n_fft i ≤ bandwidth)) := by
    refine List.mem_filter.mpr ⟨List.mem_range.mpr (by omega), ?_⟩
    have hz : gridFreq rate n_fft 0 = 0 := by
      rw [gridFreq_eq rate n_fft (by omega)]; simp
    exact decide_eq_true (by rw [hz]; exact hbw)
  constructor
  · cases hmax : ((List.range (n_fft / 2 + 1)).filter
        (fun i => decide (gridFreq rate n_fft i ≤ bandwidth))).max? with
    | none =>
      rw [List.max?_eq_none_iff] at hmax
      rw [hmax] at h0
      exact absurd h0 (List.not_mem_nil 0)
    | some m =>
      obtain ⟨hmem, hub⟩ := List.max?_eq_some_iff'.mp hmax
      obtain ⟨hmr, hmp⟩ := List.mem_filter.mp hmem
      refine ⟨m, ?_, ?_, of_decide_eq_true hmp, ?_⟩
      · rw [bandwidth_to_max_bin_eq, hmax]
      · have := List.mem_range.mp hmr; omega
      · intro i hi hfi
        exact hub i (List.mem_filter.mpr
          ⟨List.mem_range.mpr (by omega), decide_eq_true hfi⟩)
  · intro hcl
    have hfull : (List.range (n_fft / 2 + 1)).filter
        (fun i => decide (gridFreq rate n_fft i ≤ bandwidth)) =
        List.range (n_fft / 2 + 1) := by
      apply List.filter_eq_self.mpr
      intro i hi
      have hile : i ≤ n_fft / 2 := by have := List.mem_range.mp hi; omega
      exact decide_eq_true
        (le_trans (gridFreq_le_nyquist rate n_fft (le_of_lt hrate) hn hile) hcl)
    have hmax : ((List.range (n_fft / 2 + 1)).filter
        (fun i => decide (gridFreq rate n_fft i ≤ bandwidth))).max? =
        some (n_fft / 2) := by
      apply List.max?_eq_some_iff'.mpr
      rw [hfull]
      refine ⟨List.mem_range.mpr (by omega), ?_⟩
      intro b hb
      have := List.mem_range.mp hb; omega
    rw [bandwidth_to_max_bin_eq, hmax]

/-- Witness for C2 at the spec's example `rate = 8000`, `n_fft = 1024`,
`bandwidth = 2000`. -/
theorem bandwidth_to_max_bin_spec_witness :
    ((0 : ℚ) < 8000 ∧ 2 ≤ 1024 ∧ (0 : ℚ) ≤ 2000) ∧
    ((∃ m, bandwidth_to_max_bin 8000 1024 2000 = some (m + 1) ∧
        m ≤ 1024 / 2 ∧ gridFreq 8000 1024 m ≤ 2000 ∧
        ∀ i ≤ 1024 / 2, gridFreq 8000 1024 i ≤ 2000 → i ≤ m) ∧
     ((8000 : ℚ) / 2 ≤ 2000 →
        bandwidth_to_max_bin 8000 1024 2000 = some (1024 / 2 + 1))) :=
  ⟨⟨by norm_num, by norm_num, by norm_num⟩,
   bandwidth_to_max_bin_spec 8000 1024 2000 (by norm_num) (by norm_num) (by norm_num)⟩

/-- C10: for a nonnegative sample rate and a strictly negative bandwidth,
no grid point satisfies the threshold, the filtered index set is empty, and
`np.max` of the empty index array fails (modelled as `none`) rather than
returning a bin index. -/
theorem bandwidth_to_max_bin_neg_bandwidth (rate : ℚ) (n_fft : ℕ) (bandwidth : ℚ)
    (hrate : 0 ≤ rate) (hbw : bandwidth < 0) :
    (∀ i ≤ n_fft / 2, ¬ gridFreq rate n_fft i ≤ bandwidth) ∧
    bandwidth_to_max_bin rate n_fft bandwidth = none := by
  have hnot : ∀ i ≤ n_fft / 2, ¬ gridFreq rate n_fft i ≤ bandwidth := by
    intro i hi h
    have := gridFreq_nonneg rate n_fft hrate hi
    linarith
  refine ⟨hnot, ?_⟩
  rw [bandwidth_to_max_bin_eq]
  have hempty : (List.range (n_fft / 2 + 1)).filter
      (fun i => decide (gridFreq rate n_fft i ≤ bandwidth)) = [] := by
    apply List.filter_eq_nil_iff.mpr
    intro i hi
    simp only [decide_eq_true_eq]
    exact hnot i (by have := List.mem_range.mp hi; omega)
  rw [hempty]
  rfl

/-- Witness for C10 at `rate = 8000`, `n_fft = 1024`, `bandwidth = -1`. -/
theorem bandwidth_to_max_bin_neg_bandwidth_witness :
    ((0 : ℚ) ≤ 8000 ∧ (-1 : ℚ) < 0) ∧
    ((∀ i ≤ 1024 / 2, ¬ gridFreq 8000 1024 i ≤ -1) ∧
     bandwidth_to_max_bin 8000 1024 (-1) = none) :=
  ⟨⟨by norm_num, by norm_num⟩,
   bandwidth_to_max_bin_neg_bandwidth 8000 1024 (-1) (by norm_num) (by norm_num)⟩

/-- C1: with EM iteration count `numIter > 0`, `UMXSeparator.forward`
raises a configuration error (before any refinement chunk is produced)
exactly when the effective source count — loaded targets plus one when
residual mode is on — is one, and proceeds to the chunked refinement when
it is at least two. -/
theorem forwardSchedule_em_guard (nbTargets : ℕ) (residual : Bool)
    (numIter nbFrames : ℕ) (wienerWinLen : Option ℕ) (hIter : 0 < numIter) :
    (effectiveSources nbTargets residual = 1 →
        ∃ msg, forwardSchedule nbTargets residual numIter nbFrames wienerWinLen =
          Except.error msg) ∧
    (2 ≤ effectiveSources nbTargets residual →
        forwardSchedule nbTargets residual numIter nbFrames wienerWinLen =
          Except.ok (chunks nbFrames wienerWinLen)) := by
  constructor
  · intro h1
    simp only [forwardSchedule]
    rw [if_pos ⟨h1, hIter⟩]
    exact ⟨_, rfl⟩
  · intro h2
    simp only [forwardSchedule]
    rw [if_neg]
    rintro ⟨h1, -⟩
    omega

/-- Witness for C1: one target with residual (two effective sources) runs;
the same theorem instantiated where the guard fires is exercised through
the hypothesis side. -/
theorem forwardSchedule_em_guard_witness :
    (0 < 1) ∧
    ((effectiveSources 1 false = 1 →
        ∃ msg, forwardSchedule 1 false 1 4 (some 2) = Except.error msg) ∧
     (2 ≤ effectiveSources 1 false →
        forwardSchedule 1 false 1 4 (some 2) = Except.ok (chunks 4 (some 2)))) :=
  ⟨by decide, forwardSchedule_em_guard 1 false 1 4 (some 2) (by decide)⟩

theorem chunksAux_at_end (wwl nbFrames fuel : ℕ) :
    chunksAux wwl nbFrames nbFrames fuel = [] := by
  cases fuel with
  | zero => rfl
  | succ f => simp [chunksAux]

theorem chunksAux_flatten (wwl nbFrames : ℕ) (hw : 1 ≤ wwl) :
    ∀ fuel pos, pos ≤ nbFrames → nbFrames - pos ≤ fuel →
      (chunksAux wwl nbFrames pos fuel).flatten = List.range' pos (nbFrames - pos) := by
  intro fuel
  induction fuel with
  | zero =>
    intro pos hple hf
    have h0 : nbFrames - pos = 0 := by omega
    simp [chunksAux, h0]
  | succ f ih =>
    intro pos hple hf
    by_cases hlt : pos < nbFrames
    · simp only [chunksAux, if_pos hlt, List.flatten_cons]
      have hrec := ih (min nbFrames (pos + wwl)) (by omega) (by omega)
      rw [hrec]
      have hstep := List.range'_append pos (min nbFrames (pos + wwl) - pos)
        (nbFrames - min nbFrames (pos + wwl)) 1
      have h1 : pos + 1 * (min nbFrames (pos + wwl) - pos) = min nbFrames (pos + wwl) := by
        omega
      have h2 : nbFrames - min nbFrames (pos + wwl) + (min nbFrames (pos + wwl) - pos) =
          nbFrames - pos := by omega
      rw [h1, h2] at hstep
      exact hstep
    · have hpe : pos = nbFrames := by omega
      rw [hpe, chunksAux_at_end]
      simp

theorem chunksAux_length_bounds (wwl nbFrames : ℕ) (hw : 1 ≤ wwl) :
    ∀ fuel pos, ∀ c ∈ chunksAux wwl nbFrames pos fuel,
      1 ≤ c.length ∧ c.length ≤ wwl := by
  intro fuel
  induction fuel with
  | zero => intro pos c hc; simp [chunksAux] at hc
  | succ f ih =>
    intro pos c hc
    by_cases hlt : pos < nbFrames
    · rw [chunksAux, if_pos hlt] at hc
      rcases List.mem_cons.mp hc with h | h
      · subst h
        rw [List.length_range']
        omega
      · exact ih _ c h
    · rw [chunksAux, if_neg hlt] at hc
      simp at hc

theorem chunksAux_dropLast (wwl nbFrames : ℕ) :
    ∀ fuel pos, ∀ c ∈ (chunksAux wwl nbFrames pos fuel).dropLast,
      c.length = wwl := by
  intro fuel
  induction fuel with
  | zero => intro pos c hc; simp [chunksAux] at hc
  | succ f ih =>
    intro pos c hc
    by_cases hlt : pos < nbFrames
    · rw [chunksAux, if_pos hlt] at hc
      by_cases hend : nbFrames ≤ pos + wwl
      · have hmin : min nbFrames (pos + wwl) = nbFrames := by omega
        rw [hmin, chunksAux_at_end] at hc
        simp at hc
      · have hmin : min nbFrames (pos + wwl) = pos + wwl := by omega
        rw [hmin] at hc
        cases hrest : chunksAux wwl nbFrames (pos + wwl) f with
        | nil => rw [hrest] at hc; simp at hc
        | cons r rs =>
          rw [hrest, List.dropLast_cons₂] at hc
          rcases List.mem_cons.mp hc with h | h
          · subst h
            rw [List.length_range']
            omega
          · exact ih (pos + wwl) c (by rw [hrest]; exact h)
    · rw [chunksAux, if_neg hlt] at hc
      simp at hc

/-- C3: for `nbFrames ≥ 1` (and a positive chunk length when one is set),
the chunking loop of `UMXSeparator.forward` partitions the frame indices
`[0, nbFrames)` into consecutive in-order chunks — their concatenation is
exactly `0, 1, …, nbFrames - 1`, so every frame index reaches the
refinement call exactly once; every chunk but the last has length exactly
`wiener_win_len` and the last is nonempty and no longer; and with
`wiener_win_len` unset a single chunk covers all frames. -/
theorem chunks_partition (nbFrames : ℕ) (wienerWinLen : Option ℕ)
    (hfr : 1 ≤ nbFrames) (hw : ∀ w, wienerWinLen = some w → 1 ≤ w) :
    (chunks nbFrames wienerWinLen).flatten = List.range nbFrames ∧
    (∀ w, wienerWinLen = some w →
      (∀ c ∈ (chunks nbFrames wienerWinLen).dropLast, c.length = w) ∧
      (∀ c ∈ chunks nbFrames wienerWinLen, 1 ≤ c.length ∧ c.length ≤ w)) ∧
    (wienerWinLen = none → chunks nbFrames wienerWinLen = [List.range nbFrames]) := by
  refine ⟨?_, ?_, ?_⟩
  · cases wienerWinLen with
    | none =>
      simp only [chunks]
      rw [chunksAux_flatten nbFrames nbFrames hfr nbFrames 0 (by omega) (by omega)]
      rw [Nat.sub_zero, List.range_eq_range']
    | some w =>
      simp only [chunks]
      rw [chunksAux_flatten w nbFrames (hw w rfl) nbFrames 0 (by omega) (by omega)]
      rw [Nat.sub_zero, List.range_eq_range']
  · rintro w rfl
    exact ⟨fun c hc => chunksAux_dropLast w nbFrames nbFrames 0 c hc,
      fun c hc => chunksAux_length_bounds w nbFrames (hw w rfl) nbFrames 0 c hc⟩
  · rintro rfl
    obtain ⟨f, rfl⟩ : ∃ f, nbFrames = f + 1 := ⟨nbFrames - 1, by omega⟩
    simp only [chunks, chunksAux, Nat.zero_add, Nat.min_self, Nat.sub_zero,
      if_pos (Nat.succ_pos f), chunksAux_at_end, List.range_eq_range']

/-- Witness for C3 at `nbFrames = 7`, `wiener_win_len = 3`
(chunks `[0,1,2], [3,4,5], [6]`). -/
theorem chunks_partition_witness :
    ((1 ≤ 7) ∧ (∀ w, (some 3 : Option ℕ) = some w → 1 ≤ w)) ∧
    ((chunks 7 (some 3)).flatten = List.range 7 ∧
     (∀ w, (some 3 : Option ℕ) = some w →
       (∀ c ∈ (chunks 7 (some 3)).dropLast, c.length = w) ∧
       (∀ c ∈ chunks 7 (some 3), 1 ≤ c.length ∧ c.length ≤ w)) ∧
     ((some 3 : Option ℕ) = none → chunks 7 (some 3) = [List.range 7])) :=
  ⟨⟨by decide, by intro w h; cases h; decide⟩,
   chunks_partition 7 (some 3) (by decide) (by intro w h; cases h; decide)⟩

theorem targetEntries_keys {α : Type} (estimates : Tensor α) :
    ∀ (k : ℕ) (targets : List String),
      (targetEntries estimates k targets).map Prod.fst = targets := by
  intro k targets
  induction targets generalizing k with
  | nil => rfl
  | cons t ts ih => simp [targetEntries, ih]

theorem targetEntries_lookup_of_not_mem {α : Type} (estimates : Tensor α)
    (name : String) :
    ∀ (k : ℕ) (targets : List String), name ∉ targets →
      (targetEntries estimates k targets).lookup name = none := by
  intro k targets
  induction targets generalizing k with
  | nil => intro _; rfl
  | cons t ts ih =>
    intro hnm
    have hne : (name == t) = false :=
      beq_eq_false_iff_ne.mpr (fun h => hnm (h ▸ List.mem_cons_self t ts))
    rw [targetEntries, List.lookup_cons, hne]
    exact ih (k + 1) (fun h => hnm (List.mem_cons_of_mem t h))

theorem targetEntries_lookup_get {α : Type} (estimates : Tensor α) :
    ∀ (targets : List String) (k i : ℕ) (h : i < targets.length),
      targets.Nodup →
      (targetEntries estimates k targets).lookup (targets.get ⟨i, h⟩) =
        some (estimates.index0 (k + i)) := by
  intro targets
  induction targets with
  | nil => intro k i h; simp at h
  | cons t ts ih =>
    intro k i h hnd
    cases i with
    | zero =>
      show (targetEntries estimates k (t :: ts)).lookup t = some (estimates.index0 (k + 0))
      rw [targetEntries, List.lookup_cons, beq_self_eq_true]
      rfl
    | succ j =>
      have hj : j < ts.length := by simpa using h
      have hget : (t :: ts).get ⟨j + 1, h⟩ = ts.get ⟨j, hj⟩ := rfl
      have hmem : ts.get ⟨j, hj⟩ ∈ ts := List.get_mem ts j hj
      have hne : (ts.get ⟨j, hj⟩ == t) = false :=
        beq_eq_false_iff_ne.mpr (fun he => (List.nodup_cons.mp hnd).1 (he ▸ hmem))
      rw [hget, targetEntries, List.lookup_cons, hne,
        show k + (j + 1) = (k + 1) + j by omega]
      exact ih (k + 1) j hj (List.nodup_cons.mp hnd).2

theorem estimatesDict_lookup_target {α : Type} (targets : List String)
    (residual : Bool) (estimates : Tensor α) {i : ℕ} (h : i < targets.length)
    (hnd : targets.Nodup) :
    (estimatesDict targets residual estimates).lookup (targets.get ⟨i, h⟩) =
      some (estimates.index0 i) := by
  have h0 := targetEntries_lookup_get estimates targets 0 i h hnd
  rw [Nat.zero_add] at h0
  rw [estimatesDict, List.lookup_append, h0]
  rfl

theorem estimatesDict_lookup_residual {α : Type} (targets : List String)
    (estimates : Tensor α) (hres : "residual" ∉ targets) :
    (estimatesDict targets true estimates).lookup ("residual") =
      some estimates.indexNeg1 := by
  rw [estimatesDict, List.lookup_append,
    targetEntries_lookup_of_not_mem estimates ("residual") 0 targets hres]
  rfl

theorem estimatesDict_lookup_residual_none {α : Type} (targets : List String)
    (estimates : Tensor α) (hres : "residual" ∉ targets) :
    (estimatesDict targets false estimates).lookup ("residual") = none := by
  rw [estimatesDict, List.lookup_append,
    targetEntries_lookup_of_not_mem estimates ("residual") 0 targets hres]
  rfl

/-- C4: with residual mode on, the source count used by the refinement and
output stack is the number of loaded targets plus one, the dictionary of
`to_dict` maps `"residual"` to the last slice `estimates[-1]` of the stack
and the `i`-th target name to slice `i`; with residual mode off no
`"residual"` key is present and the source count is the target count. -/
theorem residual_mode_sources_and_key {α : Type} [Zero α] [Add α]
    (targets : List String) (estimates : Tensor α)
    (hnd : targets.Nodup) (hres : "residual" ∉ targets) :
    (effectiveSources targets.length true = targets.length + 1 ∧
      ∃ d, to_dict targets true estimates none = some d ∧
        d.lookup ("residual") = some estimates.indexNeg1 ∧
        ∀ i (h : i < targets.length),
          d.lookup (targets.get ⟨i, h⟩) = some (estimates.index0 i)) ∧
    (effectiveSources targets.length false = targets.length ∧
      ∃ d, to_dict targets false estimates none = some d ∧
        d.lookup ("residual") = none ∧
        ∀ i (h : i < targets.length),
          d.lookup (targets.get ⟨i, h⟩) = some (estimates.index0 i)) := by
  refine ⟨⟨rfl, estimatesDict targets true estimates, rfl, ?_, ?_⟩,
    ⟨rfl, estimatesDict targets false estimates, rfl, ?_, ?_⟩⟩
  · exact estimatesDict_lookup_residual targets estimates hres
  · intro i h
    exact estimatesDict_lookup_target targets true estimates h hnd
  · exact estimatesDict_lookup_residual_none targets estimates hres
  · intro i h
    exact estimatesDict_lookup_target targets false estimates h hnd

/-- Witness for C4 with the default target list `["piano", "orch"]` and a
concrete rank-3 estimates stack. -/
theorem residual_mode_sources_and_key_witness :
    ((["piano", "orch"].Nodup ∧ "residual" ∉ ["piano", "orch"]) ∧
     ((effectiveSources (["piano", "orch"] : List String).length true =
          (["piano", "orch"] : List String).length + 1 ∧
       ∃ d, to_dict ["piano", "orch"] true
           (⟨[3, 2, 4], fun ix => ix.sum⟩ : Tensor ℕ) none = some d ∧
         d.lookup ("residual") =
           some (Tensor.indexNeg1 ⟨[3, 2, 4], fun ix => ix.sum⟩) ∧
         ∀ i (h : i < (["piano", "orch"] : List String).length),
           d.lookup (["piano", "orch"].get ⟨i, h⟩) =
             some (Tensor.index0 ⟨[3, 2, 4], fun ix => ix.sum⟩ i)) ∧
      (effectiveSources (["piano", "orch"] : List String).length false =
          (["piano", "orch"] : List String).length ∧
       ∃ d, to_dict ["piano", "orch"] false
           (⟨[3, 2, 4], fun ix => ix.sum⟩ : Tensor ℕ) none = some d ∧
         d.lookup ("residual") = none ∧
         ∀ i (h : i < (["piano", "orch"] : List String).length),
           d.lookup (["piano", "orch"].get ⟨i, h⟩) =
             some (Tensor.index0 ⟨[3, 2, 4], fun ix => ix.sum⟩ i)))) :=
  ⟨⟨by decide, by decide⟩,
   residual_mode_sources_and_key ["piano", "orch"]
     (⟨[3, 2, 4], fun ix => ix.sum⟩ : Tensor ℕ) (by decide) (by decide)⟩

/-- C9: `separate` squeezes the sample axis, then `to_dict` indexes the
first remaining axis per target.  With batch size 1 the squeeze removes the
sample axis, so the `i`-th loaded target name maps to the `i`-th separated
source of the sole sample; with batch size at least 2 the squeeze is a
no-op and the `i`-th target name maps to the slice for the `i`-th sample —
the axis indexed is the sample axis, and the returned slice still carries
the target axis in front. -/
theorem separate_batch_indexing {α : Type} [Zero α] [Add α]
    (targets : List String) (residual : Bool) (estimates : Tensor α)
    (hnd : targets.Nodup) :
    (estimates.shape.headD 0 = 1 →
      ∃ d, separate targets residual estimates = some d ∧
        ∀ i (h : i < targets.length),
          d.lookup (targets.get ⟨i, h⟩) =
            some ⟨estimates.shape.tail.tail,
              fun ix => estimates.data (0 :: i :: ix)⟩) ∧
    (2 ≤ estimates.shape.headD 0 →
      ∃ d, separate targets residual estimates = some d ∧
        ∀ i (h : i < targets.length),
          d.lookup (targets.get ⟨i, h⟩) =
            some ⟨estimates.shape.tail,
              fun ix => estimates.data (i :: ix)⟩) := by
  constructor
  · intro h1
    refine ⟨estimatesDict targets residual estimates.squeeze0, rfl, ?_⟩
    intro i h
    rw [estimatesDict_lookup_target targets residual _ h hnd]
    simp only [Tensor.squeeze0]
    rw [if_pos h1]
    rfl
  · intro h2
    have hne : ¬ estimates.shape.headD 0 = 1 := by omega
    refine ⟨estimatesDict targets residual estimates.squeeze0, rfl, ?_⟩
    intro i h
    rw [estimatesDict_lookup_target targets residual _ h hnd]
    simp only [Tensor.squeeze0]
    rw [if_neg hne]
    rfl

/-- Witness for C9 with the default target list, residual on, and concrete
batch-1 and batch-2 estimates tensors (the theorem is applied at the
batch-1 tensor; its batch-2 clause is exercised at a second application
within the same conjunction). -/
theorem separate_batch_indexing_witness :
    ((["piano", "orch"] : List String).Nodup ∧
     (((⟨[1, 3, 2, 4], fun ix => ix.sum⟩ : Tensor ℕ).shape.headD 0 = 1 →
        ∃ d, separate ["piano", "orch"] true
            (⟨[1, 3, 2, 4], fun ix => ix.sum⟩ : Tensor ℕ) = some d ∧
          ∀ i (h : i < (["piano", "orch"] : List String).length),
            d.lookup (["piano", "orch"].get ⟨i, h⟩) =
              some ⟨([1, 3, 2, 4] : List ℕ).tail.tail,
                fun ix => (0 :: i :: ix).sum⟩) ∧
       (2 ≤ ((⟨[1, 3, 2, 4], fun ix => ix.sum⟩ : Tensor ℕ)).shape.headD 0 →
        ∃ d, separate ["piano", "orch"] true
            (⟨[1, 3, 2, 4], fun ix => ix.sum⟩ : Tensor ℕ) = some d ∧
          ∀ i (h : i < (["piano", "orch"] : List String).length),
            d.lookup (["piano", "orch"].get ⟨i, h⟩) =
              some ⟨([1, 3, 2, 4] : List ℕ).tail,
                fun ix => (i :: ix).sum⟩))) :=
  ⟨by decide,
   separate_batch_indexing ["piano", "orch"] true
     (⟨[1, 3, 2, 4], fun ix => ix.sum⟩ : Tensor ℕ) (by decide)⟩

theorem targetEntries_shape {α : Type} (estimates : Tensor α) :
    ∀ (k : ℕ) (targets : List String) (p : String × Tensor α),
      p ∈ targetEntries estimates k targets → p.2.shape = estimates.shape.tail := by
  intro k targets
  induction targets generalizing k with
  | nil => intro p hp; simp [targetEntries] at hp
  | cons t ts ih =>
    intro p hp
    rcases List.mem_cons.mp hp with h | h
    · rw [h]
      rfl
    · exact ih (k + 1) p h

theorem estimatesDict_shape {α : Type} (targets : List String) (residual : Bool)
    (estimates : Tensor α) (p : String × Tensor α)
    (hp : p ∈ estimatesDict targets residual estimates) :
    p.2.shape = estimates.shape.tail := by
  rcases List.mem_append.mp hp with h | h
  · exact targetEntries_shape estimates 0 targets p h
  · cases residual with
    | false => simp at h
    | true =>
      simp at h
      rw [h]
      rfl

theorem lookup_mem {β : Type} :
    ∀ (d : List (String × β)) (name : String) (s : β),
      d.lookup name = some s → (name, s) ∈ d := by
  intro d
  induction d with
  | nil => intro name s h; simp [List.lookup] at h
  | cons q qs ih =>
    intro name s h
    rw [show q = (q.1, q.2) from rfl, List.lookup_cons] at h
    by_cases he : (name == q.1) = true
    · rw [he] at h
      have h2 : q.2 = s := by injection h
      have hname : name = q.1 := eq_of_beq he
      rw [hname, ← h2]
      exact List.mem_cons_self _ _
    · rw [eq_false_of_ne_true he] at h
      exact List.mem_cons_of_mem q (ih name s h)

theorem lookup_eq_none_of_not_mem_keys {β : Type} :
    ∀ (d : List (String × β)) (name : String),
      name ∉ d.map Prod.fst → d.lookup name = none := by
  intro d
  induction d with
  | nil => intro name _; rfl
  | cons q qs ih =>
    intro name hnm
    rw [List.map_cons] at hnm
    have h1 : name ≠ q.1 := fun h => hnm (h ▸ List.mem_cons_self _ _)
    rw [show q = (q.1, q.2) from rfl, List.lookup_cons,
      beq_eq_false_iff_ne.mpr h1]
    exact ih name (fun h => hnm (List.mem_cons_of_mem _ h))

theorem lookup_map_key {β : Type} (g : String × List String → β) :
    ∀ (agg : List (String × List String)), (agg.map Prod.fst).Nodup →
      ∀ p ∈ agg, (agg.map (fun q => (q.1, g q))).lookup p.1 = some (g p) := by
  intro agg
  induction agg with
  | nil => intro _ p hp; simp at hp
  | cons q qs ih =>
    intro hnd p hp
    rw [List.map_cons] at hnd
    rcases List.mem_cons.mp hp with h | h
    · rw [h, List.map_cons, List.lookup_cons, beq_self_eq_true]
    · have hne : (p.1 == q.1) = false := by
        refine beq_eq_false_iff_ne.mpr (fun he => ?_)
        exact (List.nodup_cons.mp hnd).1 (he ▸ List.mem_map_of_mem Prod.fst h)
      rw [List.map_cons, List.lookup_cons, hne]
      exact ih (List.nodup_cons.mp hnd).2 p h

theorem foldlM_lookup_add {α : Type} [Zero α] [Add α]
    (d : List (String × Tensor α)) :
    ∀ (names : List String) (acc : Tensor α),
      (∀ name ∈ names, (d.lookup name).isSome) →
      names.foldlM (fun acc name => (d.lookup name).map (fun t => acc.add t)) acc =
        some (names.foldl
          (fun acc name => acc.add ((d.lookup name).getD Tensor.scalarZero)) acc) := by
  intro names
  induction names with
  | nil => intro acc _; rfl
  | cons n ns ih =>
    intro acc h
    obtain ⟨s, hs⟩ := Option.isSome_iff_exists.mp (h n (List.mem_cons_self n ns))
    rw [List.foldlM_cons, List.foldl_cons, hs]
    simp only [Option.map_some', Option.getD_some]
    show (some (acc.add s) >>= fun init =>
      List.foldlM (fun acc name => (d.lookup name).map (fun t => acc.add t)) init ns) = _
    rw [Option.bind_eq_bind, Option.some_bind]
    exact ih (acc.add s) (fun m hm => h m (List.mem_cons_of_mem n hm))

theorem foldl_add_shape_data {α : Type} [AddMonoid α] (s : List ℕ) (hs : s ≠ []) :
    ∀ (l : List (Tensor α)) (acc : Tensor α), acc.shape = s →
      (∀ t ∈ l, t.shape = s) →
      (l.foldl Tensor.add acc).shape = s ∧
      ∀ ix, (l.foldl Tensor.add acc).data ix =
        acc.data ix + (l.map (fun t => t.data ix)).sum := by
  intro l
  induction l with
  | nil => intro acc hacc _; exact ⟨hacc, fun ix => by simp⟩
  | cons t ts ih =>
    intro acc hacc hl
    have hadd : acc.add t = ⟨s, fun ix => acc.data ix + t.data ix⟩ := by
      simp only [Tensor.add]
      rw [if_neg (fun he => hs (hacc ▸ he)), hacc]
    rw [List.foldl_cons, hadd]
    obtain ⟨hsh, hdata⟩ := ih ⟨s, fun ix => acc.data ix + t.data ix⟩ rfl
      (fun u hu => hl u (List.mem_cons_of_mem t hu))
    refine ⟨hsh, fun ix => ?_⟩
    rw [hdata ix, List.map_cons, List.sum_cons]
    show acc.data ix + t.data ix + _ = _
    rw [add_assoc]

theorem foldl_scalarZero_add {α : Type} [AddMonoid α] (s : List ℕ) (hs : s ≠ [])
    (l : List (Tensor α)) (hne : l ≠ []) (hl : ∀ t ∈ l, t.shape = s) :
    (l.foldl Tensor.add Tensor.scalarZero).shape = s ∧
    ∀ ix, (l.foldl Tensor.add Tensor.scalarZero).data ix =
      (l.map (fun t => t.data ix)).sum := by
  cases l with
  | nil => exact absurd rfl hne
  | cons t ts =>
    have ht : t.shape = s := hl t (List.mem_cons_self t ts)
    have hfirst : Tensor.scalarZero.add t = ⟨s, fun ix => (0 : α) + t.data ix⟩ := by
      simp only [Tensor.add, Tensor.scalarZero]
      rw [if_pos trivial, ht]
    rw [List.foldl_cons, hfirst]
    obtain ⟨hsh, hdata⟩ := foldl_add_shape_data s hs ts
      ⟨s, fun ix => (0 : α) + t.data ix⟩ rfl
      (fun u hu => hl u (List.mem_cons_of_mem t hu))
    refine ⟨hsh, fun ix => ?_⟩
    rw [hdata ix, List.map_cons, List.sum_cons]
    show (0 : α) + t.data ix + _ = _
    rw [zero_add]

theorem to_dict_aggregate_mapM {α : Type} [Zero α] [Add α]
    (d : List (String × Tensor α)) :
    ∀ (agg : List (String × List String)),
      (∀ p ∈ agg, ∀ name ∈ p.2, (d.lookup name).isSome) →
      agg.mapM (fun p =>
        (p.2.foldlM (fun acc name => (d.lookup name).map (fun t => acc.add t))
          Tensor.scalarZero).map (fun t => (p.1, t))) =
        some (agg.map (fun p => (p.1,
          p.2.foldl (fun acc name => acc.add ((d.lookup name).getD Tensor.scalarZero))
            Tensor.scalarZero))) := by
  intro agg
  induction agg with
  | nil => intro _; rfl
  | cons p ps ih =>
    intro h
    rw [List.mapM_cons,
      foldlM_lookup_add d p.2 Tensor.scalarZero (h p (List.mem_cons_self p ps))]
    simp only [Option.map_some', Option.bind_eq_bind, Option.some_bind]
    rw [ih (fun q hq => h q (List.mem_cons_of_mem p hq))]
    simp only [Option.some_bind]
    rfl

/-- C5: with an aggregation specification whose keys are distinct and whose
constituent lists are nonempty and name existing entries, `to_dict` returns
entries whose keys are exactly the aggregation keys in order, each mapping
to the elementwise sum of the estimates of its constituent target names;
any name that is not an aggregation key — in particular any target not
listed under one — is absent from the result. -/
theorem to_dict_aggregate_spec {α : Type} [AddMonoid α]
    (targets : List String) (residual : Bool) (estimates : Tensor α)
    (agg : List (String × List String))
    (hshape : estimates.shape.tail ≠ [])
    (hkeys : (agg.map Prod.fst).Nodup)
    (hvalid : ∀ p ∈ agg, ∀ name ∈ p.2,
      ((estimatesDict targets residual estimates).lookup name).isSome)
    (hnonempty : ∀ p ∈ agg, p.2 ≠ []) :
    ∃ res, to_dict targets residual estimates (some agg) = some res ∧
      res.map Prod.fst = agg.map Prod.fst ∧
      (∀ name, name ∉ agg.map Prod.fst → res.lookup name = none) ∧
      ∀ p ∈ agg, ∃ t, res.lookup p.1 = some t ∧
        t.shape = estimates.shape.tail ∧
        ∀ ix, t.data ix = (p.2.map (fun name =>
          (((estimatesDict targets residual estimates).lookup name).getD
            Tensor.scalarZero).data ix)).sum := by
  have hkeq : (agg.map (fun q => (q.1,
      q.2.foldl (fun acc name =>
        acc.add (((estimatesDict targets residual estimates).lookup name).getD
          Tensor.scalarZero)) Tensor.scalarZero))).map Prod.fst =
      agg.map Prod.fst := by
    rw [List.map_map]
    exact List.map_congr_left (fun q _ => rfl)
  have hmapM :=
    to_dict_aggregate_mapM (estimatesDict targets residual estimates) agg hvalid
  refine ⟨_, hmapM, hkeq, ?_, ?_⟩
  · intro name hnm
    apply lookup_eq_none_of_not_mem_keys
    rw [hkeq]
    exact hnm
  · intro p hp
    refine ⟨_, lookup_map_key _ agg hkeys p hp, ?_⟩
    have hslices : ∀ t ∈ p.2.map (fun name =>
        ((estimatesDict targets residual estimates).lookup name).getD
          Tensor.scalarZero), t.shape = estimates.shape.tail := by
      intro t ht
      obtain ⟨name, hname, hteq⟩ := List.mem_map.mp ht
      obtain ⟨s, hs⟩ := Option.isSome_iff_exists.mp (hvalid p hp name hname)
      rw [← hteq, hs, Option.getD_some]
      exact estimatesDict_shape targets residual estimates (name, s)
        (lookup_mem _ name s hs)
    have hmapne : p.2.map (fun name =>
        ((estimatesDict targets residual estimates).lookup name).getD
          Tensor.scalarZero) ≠ [] :=
      fun he => hnonempty p hp (List.map_eq_nil_iff.mp he)
    obtain ⟨hsh, hdata⟩ := foldl_scalarZero_add estimates.shape.tail hshape
      (p.2.map (fun name =>
        ((estimatesDict targets residual estimates).lookup name).getD
          Tensor.scalarZero)) hmapne hslices
    rw [List.foldl_map] at hsh hdata
    refine ⟨hsh, fun ix => ?_⟩
    rw [hdata ix, List.map_map]
    rfl

/-- Witness for C5: two targets aggregated under one key and the residual
under another, on a concrete rank-3 estimates stack. -/
theorem to_dict_aggregate_spec_witness :
    ((((⟨[3, 2, 4], fun ix => ix.sum⟩ : Tensor ℕ)).shape.tail ≠ [] ∧
      (([("keys", ["piano", "orch"]), ("rest", ["residual"])] :
        List (String × List String)).map Prod.fst).Nodup ∧
      (∀ p ∈ ([("keys", ["piano", "orch"]), ("rest", ["residual"])] :
          List (String × List String)), ∀ name ∈ p.2,
        ((estimatesDict ["piano", "orch"] true
          (⟨[3, 2, 4], fun ix => ix.sum⟩ : Tensor ℕ)).lookup name).isSome) ∧
      (∀ p ∈ ([("keys", ["piano", "orch"]), ("rest", ["residual"])] :
          List (String × List String)), p.2 ≠ [])) ∧
     (∃ res, to_dict ["piano", "orch"] true
          (⟨[3, 2, 4], fun ix => ix.sum⟩ : Tensor ℕ)
          (some [("keys", ["piano", "orch"]), ("rest", ["residual"])]) = some res ∧
        res.map Prod.fst = ([("keys", ["piano", "orch"]), ("rest", ["residual"])] :
          List (String × List String)).map Prod.fst ∧
        (∀ name, name ∉ ([("keys", ["piano", "orch"]), ("rest", ["residual"])] :
            List (String × List String)).map Prod.fst → res.lookup name = none) ∧
        ∀ p ∈ ([("keys", ["piano", "orch"]), ("rest", ["residual"])] :
            List (String × List String)), ∃ t, res.lookup p.1 = some t ∧
          t.shape = ((⟨[3, 2, 4], fun ix => ix.sum⟩ : Tensor ℕ)).shape.tail ∧
          ∀ ix, t.data ix = (p.2.map (fun name =>
            (((estimatesDict ["piano", "orch"] true
                (⟨[3, 2, 4], fun ix => ix.sum⟩ : Tensor ℕ)).lookup name).getD
              Tensor.scalarZero).data ix)).sum)) :=
  ⟨⟨by decide, by decide, by decide, by decide⟩,
   to_dict_aggregate_spec ["piano", "orch"] true
     (⟨[3, 2, 4], fun ix => ix.sum⟩ : Tensor ℕ)
     [("keys", ["piano", "orch"]), ("rest", ["residual"])]
     (by decide) (by decide) (by decide) (by decide)⟩

theorem estimateStep_next {α : Type} (xAddr : ℕ) (h : Heap α)
    (est : Estimator α) : (estimateStep xAddr h est).1.next = h.next + 1 := rfl

theorem estimateStep_store {α : Type} (xAddr : ℕ) (h : Heap α)
    (est : Estimator α) {a : ℕ} (ha : a < h.next) :
    (estimateStep xAddr h est).1.store a = h.store a := by
  show (if a = h.next then _ else if a = h.next then _ else h.store a) = h.store a
  rw [if_neg (by omega), if_neg (by omega)]

/-- C6: every estimator in the loop runs on a fresh clone of `X`, so after
the loop every pre-existing allocation — in particular `X` itself and the
input mixture — holds its original value, and the `j`-th estimator's
output is computed from the original magnitude data of `X`, independent of
how many estimators ran before it. -/
theorem estimation_loop_isolates_X {α : Type} (xAddr : ℕ) :
    ∀ (h : Heap α) (ests : List (Estimator α)), xAddr < h.next →
      (∀ a, a < h.next → (estimateLoop xAddr h ests).1.store a = h.store a) ∧
      (estimateLoop xAddr h ests).2 =
        ests.map (fun est => est.out (h.store xAddr)) := by
  intro h ests
  induction ests generalizing h with
  | nil => intro _; exact ⟨fun a _ => rfl, rfl⟩
  | cons est rest ih =>
    intro hx
    have hx1 : xAddr < (estimateStep xAddr h est).1.next := by
      rw [estimateStep_next]; omega
    obtain ⟨ihstore, ihout⟩ := ih (estimateStep xAddr h est).1 hx1
    constructor
    · intro a ha
      show (estimateLoop xAddr (estimateStep xAddr h est).1 rest).1.store a
        = h.store a
      rw [ihstore a (by rw [estimateStep_next]; omega)]
      exact estimateStep_store xAddr h est ha
    · show (estimateStep xAddr h est).2 ::
        (estimateLoop xAddr (estimateStep xAddr h est).1 rest).2 = _
      rw [ihout, estimateStep_store xAddr h est hx]
      rfl

/-- Witness for C6: a live cell holding `5`, two estimators (one of which
clobbers its argument); the cell still reads `5` and the outputs are taken
from the original value. -/
theorem estimation_loop_isolates_X_witness :
    (0 < (⟨1, fun _ => 5⟩ : Heap ℕ).next) ∧
    ((∀ a, a < (⟨1, fun _ => 5⟩ : Heap ℕ).next →
        (estimateLoop 0 (⟨1, fun _ => 5⟩ : Heap ℕ)
          [⟨fun v => v + 1, fun v => v * 2⟩, ⟨fun v => v + 3, fun _ => 0⟩]).1.store a =
        (⟨1, fun _ => 5⟩ : Heap ℕ).store a) ∧
      (estimateLoop 0 (⟨1, fun _ => 5⟩ : Heap ℕ)
        [⟨fun v => v + 1, fun v => v * 2⟩, ⟨fun v => v + 3, fun _ => 0⟩]).2 =
        ([⟨fun v => v + 1, fun v => v * 2⟩, ⟨fun v => v + 3, fun _ => 0⟩] :
          List (Estimator ℕ)).map (fun est =>
            est.out ((⟨1, fun _ => 5⟩ : Heap ℕ).store 0))) :=
  ⟨by decide,
   estimation_loop_isolates_X 0 (⟨1, fun _ => 5⟩ : Heap ℕ)
     [⟨fun v => v + 1, fun v => v * 2⟩, ⟨fun v => v + 3, fun _ => 0⟩] (by decide)⟩

/-- C7: on an input whose bin count equals the model's `nb_output_bins`
(and a well-formed model: positive channel count matching the input,
`1 ≤ max_bin ≤ nb_output_bins` so the crop keeps at least one bin, and an
even hidden size in the bidirectional case), `OpenUnmix.forward` is
shape-preserving — including when `max_bin < nb_output_bins` crops the
internal input to fewer bins. -/
theorem openUnmix_forward_shape_preserved (nbChannels nbBins nbOutputBins hidden : ℕ)
    (unidirectional : Bool) (s c b f : ℕ)
    (hb : b = nbOutputBins) (hc : c = nbChannels)
    (hbins : 1 ≤ nbBins) (hbinle : nbBins ≤ nbOutputBins) (hch : 1 ≤ nbChannels)
    (hhid : unidirectional = true ∨ hidden % 2 = 0) :
    openUnmixForwardShape nbChannels nbBins nbOutputBins hidden unidirectional
      s c b f = some (s, c, b, f) := by
  rw [hb, hc]
  have hb1 : min nbOutputBins nbBins = nbBins := Nat.min_eq_right hbinle
  have hn : ¬ nbChannels * nbBins = 0 := by
    intro h0
    rcases Nat.mul_eq_zero.mp h0 with h | h <;> omega
  have hmod : ¬ (f * s * nbChannels * nbBins) % (nbChannels * nbBins) ≠ 0 := by
    rw [show f * s * nbChannels * nbBins = (f * s) * (nbChannels * nbBins) by ring]
    simp [Nat.mul_mod_left]
  have hrows : (f * s * nbChannels * nbBins) / (nbChannels * nbBins) = f * s := by
    rw [show f * s * nbChannels * nbBins = (f * s) * (nbChannels * nbBins) by ring]
    exact Nat.mul_div_cancel _ (by omega)
  simp only [openUnmixForwardShape, hb1]
  rw [if_neg hn, if_neg hmod, hrows, if_neg (by omega)]
  have hlstm : ¬ hidden + (if unidirectional then 1 else 2) *
      (if unidirectional then hidden else hidden / 2) ≠ 2 * hidden := by
    cases unidirectional with
    | true => simp; omega
    | false =>
      simp only [if_neg Bool.false_ne_true]
      rcases hhid with h | h
      · exact absurd h Bool.false_ne_true
      · omega
  rw [if_neg hlstm, if_neg (by push_neg; ring), if_neg (by omega)]

/-- Witness for C7 at a small concrete model and input shape
(`max_bin = 2 < 3 = nb_output_bins`, bidirectional, `hidden = 2`). -/
theorem openUnmix_forward_shape_preserved_witness :
    ((3 : ℕ) = 3 ∧ (2 : ℕ) = 2 ∧ (1 : ℕ) ≤ 2 ∧ (2 : ℕ) ≤ 3 ∧ (1 : ℕ) ≤ 2 ∧
      (false = true ∨ (2 : ℕ) % 2 = 0)) ∧
    openUnmixForwardShape 2 2 3 2 false 1 2 3 4 = some (1, 2, 3, 4) :=
  ⟨⟨rfl, rfl, by decide, by decide, by decide, Or.inr (by decide)⟩,
   openUnmix_forward_shape_preserved 2 2 3 2 false 1 2 3 4 rfl rfl
     (by decide) (by decide) (by decide) (Or.inr (by decide))⟩

/-- C8: whenever the input magnitude spectrogram is entrywise nonnegative,
so is the output of `OpenUnmix.forward`, whatever the trunk computed: the
output is an elementwise product of a ReLU-rectified mask with the saved
copy of the input. -/
theorem openUnmix_output_nonneg (pre x : ℕ × ℕ × ℕ × ℕ → ℚ)
    (hx : ∀ p, 0 ≤ x p) : ∀ q, 0 ≤ openUnmixMaskOutput pre x q := by
  intro q
  exact mul_nonneg (le_max_right _ _) (hx _)

/-- Witness for C8: an all-ones input and a trunk that outputs `-5`
everywhere still yield a nonnegative separation mask output. -/
theorem openUnmix_output_nonneg_witness :
    (∀ p : ℕ × ℕ × ℕ × ℕ, (0 : ℚ) ≤ (fun _ => (1 : ℚ)) p) ∧
    ∀ q, 0 ≤ openUnmixMaskOutput (fun _ => (-5 : ℚ)) (fun _ => (1 : ℚ)) q :=
  ⟨fun _ => zero_le_one,
   openUnmix_output_nonneg (fun _ => (-5 : ℚ)) (fun _ => (1 : ℚ))
     (fun _ => zero_le_one)⟩

end UMX
